/-
Verification of the SynthSR command-line prediction script
(scripts/predict_command_line.py).

The script is a linear pipeline: parse arguments, optionally hide CUDA
devices, import the numerical framework and configure its threads, build
the U-net, load its weights, discover the input files, and then for each
file: load, preprocess (CT clipping, resampling, alignment, normalization,
padding), predict (optionally flip-averaged), postprocess (rescale, clip,
crop) and save.

We embed the script shallowly:
  * its control flow as an event trace (`scriptTrace`),
  * volumes as total functions on voxel indices (3-D) or as flat lists of
    rational intensities where only elementwise structure matters,
  * the input-path dispatch as a function into `Except`,
  * the output-file naming as a Python-style replace-all on `List Char`.
-/
import Mathlib

set_option maxHeartbeats 1000000

/-! ### Command-line arguments

`argparse` configuration: `--cpu`, `--ct`, `--disable_flipping` are
store-true flags, `--threads` is an integer defaulting to 1, `--model` an
optional path. -/

/-- Parsed command-line arguments of the script. -/
structure Args where
  cpu : Bool
  threads : ℤ
  ct : Bool
  model : Option String
  disableFlipping : Bool

/-- Argparse gives `--threads` the default value 1 when absent. -/
def parsedThreads (given : Option ℤ) : ℤ := given.getD 1

/-! ### The script as an event trace -/

/-- Observable steps of the script, in the order the source executes them.
A `ℕ` index identifies which discovered file a per-file step belongs to. -/
inductive Event where
  | parseArgs
  | setEnv (key value : String)
  | importFramework
  | setThreads (n : ℤ)
  | buildModel
  | loadWeights
  | discoverInputs
  | loadVol (i : ℕ)
  | preprocessVol (i : ℕ)
  | predictVol (i : ℕ)
  | postprocessVol (i : ℕ)
  | saveVol (i : ℕ)
deriving DecidableEq

/-- The five per-file steps of one loop iteration, in source order:
load the volume, preprocess it, predict, postprocess, save. -/
def fileBlock (i : ℕ) : List Event :=
  [Event.loadVol i, Event.preprocessVol i, Event.predictVol i,
   Event.postprocessVol i, Event.saveVol i]

/-- The trace of the processing loop over files `0, …, n-1`. -/
def loopTrace : ℕ → List Event
  | 0 => []
  | n + 1 => loopTrace n ++ fileBlock n

/-- The module-level setup: parse arguments, set `CUDA_VISIBLE_DEVICES`
to `-1` when `--cpu` is given, import tensorflow, configure its intra-op
threads, build the U-net, load the weights, and list the input images. -/
def setupTrace (a : Args) : List Event :=
  [Event.parseArgs]
    ++ (if a.cpu then [Event.setEnv "CUDA_VISIBLE_DEVICES" "-1"] else [])
    ++ [Event.importFramework, Event.setThreads a.threads,
        Event.buildModel, Event.loadWeights, Event.discoverInputs]

/-- The full trace of a run that discovers `n` input files. -/
def scriptTrace (a : Args) (n : ℕ) : List Event :=
  setupTrace a ++ loopTrace n

/-- Holds when `e₁` occurs at a strictly earlier position than `e₂` in the list `l`. -/
def precedes (l : List Event) (e₁ e₂ : Event) : Prop :=
  ∃ p q, p < q ∧ l.get? p = some e₁ ∧ l.get? q = some e₂

theorem loopTrace_length (n : ℕ) : (loopTrace n).length = 5 * n := by
  induction n with
  | zero => rfl
  | succ n ih => simp [loopTrace, fileBlock, ih]; ring

theorem loopTrace_get (n i r : ℕ) (hi : i < n) (hr : r < 5) :
    (loopTrace n).get? (5 * i + r) = (fileBlock i).get? r := by
  induction n with
  | zero => omega
  | succ n ih =>
    rcases Nat.lt_succ_iff_lt_or_eq.mp hi with h | h
    · rw [loopTrace, List.get?_append]
      · exact ih h
      · rw [loopTrace_length]; omega
    · subst h
      rw [loopTrace, List.get?_append_right]
      · rw [loopTrace_length]
        congr 1
        omega
      · rw [loopTrace_length]; omega

/-- Length of the setup segment of the trace. -/
def setupLen (a : Args) : ℕ := if a.cpu then 7 else 6

theorem setupTrace_length (a : Args) : (setupTrace a).length = setupLen a := by
  cases h : a.cpu <;> simp [setupTrace, setupLen, h]

theorem scriptTrace_get_loop (a : Args) (n i r : ℕ) (hi : i < n) (hr : r < 5) :
    (scriptTrace a n).get? (setupLen a + (5 * i + r)) = (fileBlock i).get? r := by
  rw [scriptTrace, List.get?_append_right]
  · rw [setupTrace_length, Nat.add_sub_cancel_left]
    exact loopTrace_get n i r hi hr
  · rw [setupTrace_length]; omega

theorem scriptTrace_get_setup (a : Args) (n m : ℕ) (hm : m < setupLen a) :
    (scriptTrace a n).get? m = (setupTrace a).get? m := by
  rw [scriptTrace, List.get?_append]
  rw [setupTrace_length]
  exact hm

theorem setupLen_ge (a : Args) : 6 ≤ setupLen a := by
  cases h : a.cpu <;> simp [setupLen, h]

/-- Claim C1: The script is a linear pipeline: argument parsing happens
first; the model is built, then its weights are loaded, then the input
files are discovered; for each discovered file the steps load, preprocess,
predict, postprocess, save occur in this order; and every step of file
`j`'s processing occurs after file `i`'s save whenever `i < j`. -/
theorem c1_pipeline_order (a : Args) (n : ℕ) :
    (scriptTrace a n).get? 0 = some Event.parseArgs
    ∧ precedes (scriptTrace a n) Event.parseArgs Event.buildModel
    ∧ precedes (scriptTrace a n) Event.buildModel Event.loadWeights
    ∧ precedes (scriptTrace a n) Event.loadWeights Event.discoverInputs
    ∧ (∀ i, i < n →
        precedes (scriptTrace a n) Event.discoverInputs (Event.loadVol i)
        ∧ precedes (scriptTrace a n) (Event.loadVol i) (Event.preprocessVol i)
        ∧ precedes (scriptTrace a n) (Event.preprocessVol i) (Event.predictVol i)
        ∧ precedes (scriptTrace a n) (Event.predictVol i) (Event.postprocessVol i)
        ∧ precedes (scriptTrace a n) (Event.postprocessVol i) (Event.saveVol i))
    ∧ (∀ i j, i < j → j < n →
        precedes (scriptTrace a n) (Event.saveVol i) (Event.loadVol j)) := by
  have hlen := setupLen_ge a
  have hparse : (scriptTrace a n).get? 0 = some Event.parseArgs := by
    rw [scriptTrace_get_setup a n 0 (by omega)]
    simp [setupTrace]
  have hbuild : (scriptTrace a n).get? (setupLen a - 3) = some Event.buildModel := by
    rw [scriptTrace_get_setup a n _ (by omega)]
    cases h : a.cpu <;> simp [setupTrace, setupLen, h]
  have hweights : (scriptTrace a n).get? (setupLen a - 2) = some Event.loadWeights := by
    rw [scriptTrace_get_setup a n _ (by omega)]
    cases h : a.cpu <;> simp [setupTrace, setupLen, h]
  have hdisc : (scriptTrace a n).get? (setupLen a - 1) = some Event.discoverInputs := by
    rw [scriptTrace_get_setup a n _ (by omega)]
    cases h : a.cpu <;> simp [setupTrace, setupLen, h]
  refine ⟨hparse, ⟨0, setupLen a - 3, by omega, hparse, hbuild⟩,
    ⟨setupLen a - 3, setupLen a - 2, by omega, hbuild, hweights⟩,
    ⟨setupLen a - 2, setupLen a - 1, by omega, hweights, hdisc⟩, ?_, ?_⟩
  · intro i hi
    refine ⟨⟨setupLen a - 1, setupLen a + (5 * i + 0), by omega, hdisc, ?_⟩,
      ⟨setupLen a + (5 * i + 0), setupLen a + (5 * i + 1), by omega, ?_, ?_⟩,
      ⟨setupLen a + (5 * i + 1), setupLen a + (5 * i + 2), by omega, ?_, ?_⟩,
      ⟨setupLen a + (5 * i + 2), setupLen a + (5 * i + 3), by omega, ?_, ?_⟩,
      ⟨setupLen a + (5 * i + 3), setupLen a + (5 * i + 4), by omega, ?_, ?_⟩⟩ <;>
    · rw [scriptTrace_get_loop a n i _ hi (by omega)]
      simp [fileBlock]
  · intro i j hij hj
    refine ⟨setupLen a + (5 * i + 4), setupLen a + (5 * j + 0), by omega, ?_, ?_⟩ <;>
    · rw [scriptTrace_get_loop a n _ _ (by omega) (by omega)]
      simp [fileBlock]

theorem c1_pipeline_order_witness :
    precedes (scriptTrace ⟨true, 1, false, none, false⟩ 2) (Event.saveVol 0) (Event.loadVol 1)
    ∧ precedes (scriptTrace ⟨true, 1, false, none, false⟩ 2)
        (Event.loadVol 0) (Event.preprocessVol 0) :=
  ⟨(c1_pipeline_order ⟨true, 1, false, none, false⟩ 2).2.2.2.2.2 0 1
      (by decide) (by decide),
   ((c1_pipeline_order ⟨true, 1, false, none, false⟩ 2).2.2.2.2.1 0 (by decide)).2.1⟩

/-! ### CPU enforcement and thread configuration -/

/-- The environment-variable effect of the CPU-enforcement step: when
`--cpu` is given the script executes
`os.environ['CUDA_VISIBLE_DEVICES'] = '-1'`, otherwise nothing. The
environment is a partial map from variable names to values. -/
def applyCpuEnv (cpu : Bool) (env : String → Option String) : String → Option String :=
  if cpu then
    fun k => if k = "CUDA_VISIBLE_DEVICES" then some "-1" else env k
  else env

/-- Claim C8: With `--cpu`, `CUDA_VISIBLE_DEVICES` is set to `-1`, no
other variable is touched, and the assignment precedes the framework
being imported in the trace; without `--cpu` the environment is left
unchanged. -/
theorem c8_cuda_env (env : String → Option String) (a : Args) (n : ℕ) :
    (a.cpu = true →
      applyCpuEnv a.cpu env "CUDA_VISIBLE_DEVICES" = some "-1"
      ∧ (∀ k, k ≠ "CUDA_VISIBLE_DEVICES" → applyCpuEnv a.cpu env k = env k)
      ∧ precedes (scriptTrace a n)
          (Event.setEnv "CUDA_VISIBLE_DEVICES" "-1") Event.importFramework)
    ∧ (a.cpu = false → applyCpuEnv a.cpu env = env) := by
  constructor
  · intro h
    refine ⟨by simp [applyCpuEnv, h], fun k hk => by simp [applyCpuEnv, h, hk], ?_⟩
    have h1 : (scriptTrace a n).get? 1 = some (Event.setEnv "CUDA_VISIBLE_DEVICES" "-1") := by
      rw [scriptTrace_get_setup a n 1 (by simp [setupLen, h])]
      simp [setupTrace, h]
    have h2 : (scriptTrace a n).get? 2 = some Event.importFramework := by
      rw [scriptTrace_get_setup a n 2 (by simp [setupLen, h])]
      simp [setupTrace, h]
    exact ⟨1, 2, by omega, h1, h2⟩
  · intro h
    simp [applyCpuEnv, h]

theorem c8_cuda_env_witness :
    applyCpuEnv true (fun _ => none) "CUDA_VISIBLE_DEVICES" = some "-1"
    ∧ applyCpuEnv false (fun _ => none) = (fun _ : String => none) :=
  ⟨((c8_cuda_env (fun _ => none) ⟨true, 1, false, none, false⟩ 0).1 rfl).1,
   (c8_cuda_env (fun _ => none) ⟨false, 1, false, none, false⟩ 0).2 rfl⟩

/-- Recognizes the thread-configuration step
(`tf.config.threading.set_intra_op_parallelism_threads`). -/
def isSetThreadsEvent : Event → Bool
  | Event.setThreads _ => true
  | _ => false

theorem loopTrace_no_threads (n : ℕ) :
    (loopTrace n).filter isSetThreadsEvent = [] := by
  induction n with
  | zero => rfl
  | succ n ih => simp [loopTrace, fileBlock, List.filter_append, ih, isSetThreadsEvent]

/-- Claim C9: The trace contains exactly one thread-configuration step and
it carries `args.threads` unchanged; `argparse` defaults `--threads`
to 1 and otherwise passes the given integer through. -/
theorem c9_threads_passthrough (a : Args) (n : ℕ) :
    (scriptTrace a n).filter isSetThreadsEvent = [Event.setThreads a.threads]
    ∧ parsedThreads none = 1
    ∧ (∀ t : ℤ, parsedThreads (some t) = t) := by
  refine ⟨?_, rfl, fun t => rfl⟩
  rw [scriptTrace, List.filter_append, loopTrace_no_threads]
  cases h : a.cpu <;> simp [setupTrace, h, isSetThreadsEvent]

/-! ### CT clipping

`if args['ct']: im[im < 0] = 0; im[im > 80] = 80`, elementwise over the
loaded volume, which we flatten to a list of rational intensities. -/

/-- First masked assignment: `im[im < 0] = 0`. -/
def ctClipLow (x : ℚ) : ℚ := if x < 0 then 0 else x

/-- Second masked assignment: `im[im > 80] = 80`. -/
def ctClipHigh (x : ℚ) : ℚ := if 80 < x then 80 else x

/-- The CT-preprocessing branch of the loop body. -/
def ctStep (ct : Bool) (im : List ℚ) : List ℚ :=
  if ct then (im.map ctClipLow).map ctClipHigh else im

/-- Claim C7: With `--ct` every voxel is clamped into `[0, 80]`; without
`--ct` the volume passes on unmodified. -/
theorem c7_ct_clipping (im : List ℚ) :
    ctStep true im = im.map (fun x => min 80 (max 0 x))
    ∧ ctStep false im = im := by
  refine ⟨?_, rfl⟩
  simp only [ctStep, if_pos, List.map_map]
  apply List.map_congr_left
  intro x _
  simp only [Function.comp, ctClipLow, ctClipHigh]
  rcases lt_or_le x 0 with h | h
  · rw [if_pos h, if_neg (by norm_num), max_eq_left h.le, min_eq_right (by norm_num)]
  · rw [if_neg (not_lt.mpr h), max_eq_right h]
    rcases le_or_lt x 80 with h80 | h80
    · rw [if_neg (not_lt.mpr h80), min_eq_right h80]
    · rw [if_pos h80, min_eq_left h80.le]

/-! ### Intensity normalization

`im = im - np.min(im); im = im / np.max(im)`, flattened to a list. -/

/-- Minimum (`np.min`) over a flattened nonempty volume; 0 on the empty list. -/
def minL : List ℚ → ℚ
  | [] => 0
  | a :: t => t.foldl min a

/-- Maximum (`np.max`) over a flattened nonempty volume; 0 on the empty list. -/
def maxL : List ℚ → ℚ
  | [] => 0
  | a :: t => t.foldl max a

/-- The divisor of the normalization: `np.max(im - np.min(im))`. -/
def normDivisor (l : List ℚ) : ℚ := maxL (l.map (fun x => x - minL l))

/-- The two normalization statements of the script, composed. -/
def normalizeVol (l : List ℚ) : List ℚ :=
  (l.map (fun x => x - minL l)).map (fun x => x / normDivisor l)

/-- All intensities of the volume are equal. -/
def allEq (l : List ℚ) : Prop := ∀ x ∈ l, ∀ y ∈ l, x = y

theorem foldl_min_le (l : List ℚ) (a : ℚ) :
    l.foldl min a ≤ a ∧ ∀ x ∈ l, l.foldl min a ≤ x := by
  induction l generalizing a with
  | nil => simp
  | cons b t ih =>
    have h := ih (min a b)
    refine ⟨h.1.trans (min_le_left a b), ?_⟩
    intro x hx
    rcases List.mem_cons.mp hx with rfl | hx
    · exact h.1.trans (min_le_right a x)
    · exact h.2 x hx

theorem le_foldl_max (l : List ℚ) (a : ℚ) :
    a ≤ l.foldl max a ∧ ∀ x ∈ l, x ≤ l.foldl max a := by
  induction l generalizing a with
  | nil => simp
  | cons b t ih =>
    have h := ih (max a b)
    refine ⟨(le_max_left a b).trans h.1, ?_⟩
    intro x hx
    rcases List.mem_cons.mp hx with rfl | hx
    · exact (le_max_right a x).trans h.1
    · exact h.2 x hx

theorem foldl_min_mem (l : List ℚ) (a : ℚ) :
    l.foldl min a = a ∨ l.foldl min a ∈ l := by
  induction l generalizing a with
  | nil => simp
  | cons b t ih =>
    rcases ih (min a b) with h | h
    · rcases min_choice a b with hab | hab
      · left
        rw [List.foldl_cons, h, hab]
      · right
        rw [List.foldl_cons, h, hab]
        exact List.mem_cons_self b t
    · right
      exact List.mem_cons_of_mem b h

theorem foldl_max_mem (l : List ℚ) (a : ℚ) :
    l.foldl max a = a ∨ l.foldl max a ∈ l := by
  induction l generalizing a with
  | nil => simp
  | cons b t ih =>
    rcases ih (max a b) with h | h
    · rcases max_choice a b with hab | hab
      · left
        rw [List.foldl_cons, h, hab]
      · right
        rw [List.foldl_cons, h, hab]
        exact List.mem_cons_self b t
    · right
      exact List.mem_cons_of_mem b h

theorem minL_le (l : List ℚ) (x : ℚ) (hx : x ∈ l) : minL l ≤ x := by
  match l with
  | a :: t =>
    rcases List.mem_cons.mp hx with rfl | hx
    · exact (foldl_min_le t x).1
    · exact (foldl_min_le t a).2 x hx

theorem le_maxL (l : List ℚ) (x : ℚ) (hx : x ∈ l) : x ≤ maxL l := by
  match l with
  | a :: t =>
    rcases List.mem_cons.mp hx with rfl | hx
    · exact (le_foldl_max t x).1
    · exact (le_foldl_max t a).2 x hx

theorem minL_mem (l : List ℚ) (h : l ≠ []) : minL l ∈ l := by
  match l with
  | a :: t =>
    rcases foldl_min_mem t a with h | h
    · rw [minL, h]
      exact List.mem_cons_self a t
    · exact List.mem_cons_of_mem a h

theorem maxL_mem (l : List ℚ) (h : l ≠ []) : maxL l ∈ l := by
  match l with
  | a :: t =>
    rcases foldl_max_mem t a with h | h
    · rw [maxL, h]
      exact List.mem_cons_self a t
    · exact List.mem_cons_of_mem a h

theorem foldl_min_map_sub (l : List ℚ) (a c : ℚ) :
    (l.map (fun x => x - c)).foldl min (a - c) = l.foldl min a - c := by
  induction l generalizing a with
  | nil => rfl
  | cons b t ih =>
    simp only [List.map_cons, List.foldl_cons, min_sub_sub_right]
    exact ih (min a b)

theorem foldl_max_map_sub (l : List ℚ) (a c : ℚ) :
    (l.map (fun x => x - c)).foldl max (a - c) = l.foldl max a - c := by
  induction l generalizing a with
  | nil => rfl
  | cons b t ih =>
    simp only [List.map_cons, List.foldl_cons, max_sub_sub_right]
    exact ih (max a b)

theorem foldl_min_map_div (l : List ℚ) (a c : ℚ) (hc : 0 ≤ c) :
    (l.map (fun x => x / c)).foldl min (a / c) = l.foldl min a / c := by
  induction l generalizing a with
  | nil => rfl
  | cons b t ih =>
    simp only [List.map_cons, List.foldl_cons, min_div_div_right hc]
    exact ih (min a b)

theorem foldl_max_map_div (l : List ℚ) (a c : ℚ) (hc : 0 ≤ c) :
    (l.map (fun x => x / c)).foldl max (a / c) = l.foldl max a / c := by
  induction l generalizing a with
  | nil => rfl
  | cons b t ih =>
    simp only [List.map_cons, List.foldl_cons, max_div_div_right hc]
    exact ih (max a b)

theorem minL_map_sub (l : List ℚ) (h : l ≠ []) (c : ℚ) :
    minL (l.map (fun x => x - c)) = minL l - c := by
  match l with
  | a :: t =>
    simp only [List.map_cons, minL]
    exact foldl_min_map_sub t a c

theorem maxL_map_sub (l : List ℚ) (h : l ≠ []) (c : ℚ) :
    maxL (l.map (fun x => x - c)) = maxL l - c := by
  match l with
  | a :: t =>
    simp only [List.map_cons, maxL]
    exact foldl_max_map_sub t a c

theorem minL_map_div (l : List ℚ) (h : l ≠ []) (c : ℚ) (hc : 0 ≤ c) :
    minL (l.map (fun x => x / c)) = minL l / c := by
  match l with
  | a :: t =>
    simp only [List.map_cons, minL]
    exact foldl_min_map_div t a c hc

theorem maxL_map_div (l : List ℚ) (h : l ≠ []) (c : ℚ) (hc : 0 ≤ c) :
    maxL (l.map (fun x => x / c)) = maxL l / c := by
  match l with
  | a :: t =>
    simp only [List.map_cons, maxL]
    exact foldl_max_map_div t a c hc

/-! ### Padding to a network-compatible shape, and the final crop

`W = ceil(shape / 32) * 32`, `idx = floor((W - shape) / 2)`,
`S[idx : idx + shape] = I`, and after prediction
`pred = pred[idx : idx + shape]`. Volumes are total functions on voxel
coordinates; `padVol` is the zero array `S` after the slice assignment. -/

/-- Volume in three dimensions: intensity at each voxel coordinate. -/
abbrev Vox := ℕ → ℕ → ℕ → ℚ

/-- Padded extent of one spatial dimension: `ceil(d / 32) * 32`. -/
def W32 (d : ℕ) : ℕ := ((d + 31) / 32) * 32

/-- Offset of the centered placement: `floor((W - d) / 2)`. -/
def idx32 (d : ℕ) : ℕ := (W32 d - d) / 2

/-- Result of `S = np.zeros(W)` followed by
`S[idx : idx + d1, idx : idx + d2, idx : idx + d3] = I`. -/
def padVol (d1 d2 d3 : ℕ) (v : Vox) : Vox :=
  fun i j k =>
    if i < W32 d1 ∧ j < W32 d2 ∧ k < W32 d3
        ∧ idx32 d1 ≤ i ∧ i < idx32 d1 + d1
        ∧ idx32 d2 ≤ j ∧ j < idx32 d2 + d2
        ∧ idx32 d3 ≤ k ∧ k < idx32 d3 + d3 then
      v (i - idx32 d1) (j - idx32 d2) (k - idx32 d3)
    else 0

/-- The final crop `pred[idx : idx + d1, idx : idx + d2, idx : idx + d3]`,
with the same offsets as the padding. -/
def cropVol (d1 d2 d3 : ℕ) (S : Vox) : Vox :=
  fun i j k => S (i + idx32 d1) (j + idx32 d2) (k + idx32 d3)

theorem idx32_add_le (d : ℕ) : idx32 d + d ≤ W32 d := by
  have h : d ≤ W32 d := by
    rw [W32]
    omega
  rw [idx32]
  omega

/-- Claim C3: Each padded extent `W32 d` is the least multiple of 32 that is
at least `d`, the offset is the centered `floor((W - d) / 2)`, and cropping
with the same offsets and extents inverts the padding on the whole
`d1 × d2 × d3` domain. -/
theorem c3_pad_crop_round_trip (d1 d2 d3 : ℕ) (v : Vox) :
    (∀ d : ℕ, 32 ∣ W32 d ∧ d ≤ W32 d ∧ ∀ m : ℕ, 32 ∣ m → d ≤ m → W32 d ≤ m)
    ∧ (∀ d : ℕ, idx32 d = (W32 d - d) / 2)
    ∧ (∀ i j k, i < d1 → j < d2 → k < d3 →
        cropVol d1 d2 d3 (padVol d1 d2 d3 v) i j k = v i j k) := by
  refine ⟨?_, fun d => rfl, ?_⟩
  · intro d
    refine ⟨⟨(d + 31) / 32, by rw [W32, mul_comm]⟩, by rw [W32]; omega, ?_⟩
    intro m hdvd hdm
    obtain ⟨t, rfl⟩ := hdvd
    rw [W32]
    omega
  · intro i j k hi hj hk
    have h1 := idx32_add_le d1
    have h2 := idx32_add_le d2
    have h3 := idx32_add_le d3
    simp only [cropVol, padVol]
    rw [if_pos ⟨by omega, by omega, by omega, by omega, by omega, by omega,
      by omega, by omega, by omega⟩]
    have e1 : i + idx32 d1 - idx32 d1 = i := by omega
    have e2 : j + idx32 d2 - idx32 d2 = j := by omega
    have e3 : k + idx32 d3 - idx32 d3 = k := by omega
    rw [e1, e2, e3]

theorem c3_pad_crop_round_trip_witness :
    cropVol 1 1 1 (padVol 1 1 1 (fun _ _ _ => 3)) 0 0 0 = (3 : ℚ)
    ∧ W32 5 ≤ 32 :=
  ⟨(c3_pad_crop_round_trip 1 1 1 (fun _ _ _ => 3)).2.2 0 0 0
      (by decide) (by decide) (by decide),
   ((c3_pad_crop_round_trip 1 1 1 (fun _ _ _ => 3)).1 5).2.2 32
      (by decide) (by decide)⟩

/-! ### Postprocessing: rescale, clip, crop -/

/-- Rescaling: `pred = 255 * pred`. -/
def rescale255 (x : ℚ) : ℚ := 255 * x

/-- Lower clip: `pred[pred < 0] = 0`. -/
def clipLow0 (x : ℚ) : ℚ := if x < 0 then 0 else x

/-- Upper clip: `pred[pred > 128] = 128`. -/
def clipHigh128 (x : ℚ) : ℚ := if 128 < x then 128 else x

/-- The postprocessing of the squeezed network output, in source order:
rescale by 255, clip below at 0, clip above at 128, then crop. -/
def postprocessVol (d1 d2 d3 : ℕ) (out : Vox) : Vox :=
  cropVol d1 d2 d3 (fun i j k => clipHigh128 (clipLow0 (rescale255 (out i j k))))

/-- Modelled from the spec's listed order — cropping, clipping, rescaling —
with the clipping thresholds adjusted by the factor 255. -/
def specOrderPostprocess (d1 d2 d3 : ℕ) (out : Vox) : Vox :=
  fun i j k => 255 * min (128 / 255) (max 0 (cropVol d1 d2 d3 out i j k))

theorem clip_eq_min_max (y : ℚ) : clipHigh128 (clipLow0 y) = min 128 (max 0 y) := by
  simp only [clipLow0, clipHigh128]
  rcases lt_or_le y 0 with h | h
  · rw [if_pos h, if_neg (by norm_num), max_eq_left h.le, min_eq_right (by norm_num)]
  · rw [if_neg (not_lt.mpr h), max_eq_right h]
    rcases le_or_lt y 128 with h128 | h128
    · rw [if_neg (not_lt.mpr h128), min_eq_right h128]
    · rw [if_pos h128, min_eq_left h128.le]

/-- Claim C4: The saved array is the squeezed output times 255, clipped to
`[0, 128]`, then cropped — and this equals the spec's order (crop, clip,
rescale) with thresholds adjusted by the 255 factor. -/
theorem c4_postprocess (d1 d2 d3 : ℕ) (out : Vox) :
    (∀ i j k, postprocessVol d1 d2 d3 out i j k
        = min 128 (max 0 (255 * out (i + idx32 d1) (j + idx32 d2) (k + idx32 d3))))
    ∧ postprocessVol d1 d2 d3 out = specOrderPostprocess d1 d2 d3 out := by
  have key : ∀ i j k, postprocessVol d1 d2 d3 out i j k
      = min 128 (max 0 (255 * out (i + idx32 d1) (j + idx32 d2) (k + idx32 d3))) := by
    intro i j k
    simp only [postprocessVol, cropVol, rescale255]
    rw [clip_eq_min_max]
  refine ⟨key, funext fun i => funext fun j => funext fun k => ?_⟩
  rw [key i j k]
  simp only [specOrderPostprocess, cropVol]
  rw [mul_min_of_nonneg _ _ (by norm_num : (0 : ℚ) ≤ 255),
    mul_max_of_nonneg _ _ (by norm_num : (0 : ℚ) ≤ 255), mul_zero]
  norm_num

/-! ### Prediction with optional flipping augmentation -/

/-- Flip `np.flip(S, axis=1)` on a padded volume whose first spatial axis has
extent `w1` (axis 1 of the 5-D tensor is the first spatial axis). -/
def flipAxis1 (w1 : ℕ) (S : Vox) : Vox :=
  fun i j k => S (w1 - 1 - i) j k

/-- The prediction step of the loop body: a single `predict` call when
`--disable_flipping` is given, otherwise
`0.5 * predict(S) + 0.5 * flip(predict(flip(S, 1)), 1)`. -/
def predictStep (disableFlipping : Bool) (predict : Vox → Vox) (w1 : ℕ) (S : Vox) : Vox :=
  if disableFlipping then predict S
  else fun i j k =>
    0.5 * predict S i j k + 0.5 * flipAxis1 w1 (predict (flipAxis1 w1 S)) i j k

/-- Claim C2: Without `--disable_flipping` the prediction is the elementwise
average of `predict S` and the flip of the prediction of the flipped
volume; with the flag it is the single call `predict S`. -/
theorem c2_flipping_augmentation (predict : Vox → Vox) (w1 : ℕ) (S : Vox) :
    (∀ i j k, predictStep false predict w1 S i j k
        = (predict S i j k + predict (flipAxis1 w1 S) (w1 - 1 - i) j k) / 2)
    ∧ predictStep true predict w1 S = predict S := by
  refine ⟨?_, rfl⟩
  intro i j k
  simp only [predictStep, if_neg Bool.false_ne_true, flipAxis1]
  ring

/-- Claim C6: For a nonempty volume that is not constant, normalization
yields minimum exactly 0 and maximum exactly 1; for a constant volume the
(unguarded) divisor `np.max(im - np.min(im))` is 0. -/
theorem c6_normalization (l : List ℚ) (hne : l ≠ []) :
    (¬ allEq l → minL (normalizeVol l) = 0 ∧ maxL (normalizeVol l) = 1)
    ∧ (allEq l → normDivisor l = 0) := by
  have hmapne : l.map (fun x => x - minL l) ≠ [] := by
    intro h
    exact hne (List.map_eq_nil.mp h)
  have hmin1 : minL (l.map (fun x => x - minL l)) = 0 := by
    rw [minL_map_sub l hne, sub_self]
  have hmax1 : maxL (l.map (fun x => x - minL l)) = maxL l - minL l := maxL_map_sub l hne _
  have hD : normDivisor l = maxL l - minL l := by
    rw [normDivisor, hmax1]
  constructor
  · intro hnc
    have hlt : minL l < maxL l := by
      simp only [allEq] at hnc
      push_neg at hnc
      obtain ⟨x, hxl, y, hyl, hxy⟩ := hnc
      rcases lt_or_le (minL l) (maxL l) with h | h
      · exact h
      · exfalso
        apply hxy
        have e1 : minL l = maxL l :=
          le_antisymm (minL_le l (maxL l) (maxL_mem l hne)) h
        have e2 : x = minL l :=
          le_antisymm (by rw [e1]; exact le_maxL l x hxl) (minL_le l x hxl)
        have e3 : y = minL l :=
          le_antisymm (by rw [e1]; exact le_maxL l y hyl) (minL_le l y hyl)
        rw [e2, e3]
    have hDpos : 0 < normDivisor l := by
      rw [hD]
      exact sub_pos.mpr hlt
    constructor
    · rw [normalizeVol, minL_map_div _ hmapne _ hDpos.le, hmin1, zero_div]
    · rw [normalizeVol, maxL_map_div _ hmapne _ hDpos.le, hmax1, ← hD,
        div_self hDpos.ne']
  · intro hc
    rw [hD, sub_eq_zero]
    exact hc (maxL l) (maxL_mem l hne) (minL l) (minL_mem l hne)

theorem c6_normalization_witness :
    (minL (normalizeVol [0, 2]) = 0 ∧ maxL (normalizeVol [0, 2]) = 1)
    ∧ normDivisor [5, 5] = 0 :=
  ⟨(c6_normalization [0, 2] (by decide)).1 (by intro h; exact absurd (h 0 (by decide) 2 (by decide)) (by decide)),
   (c6_normalization [5, 5] (by decide)).2 (by intro x hx y hy; rcases List.mem_cons.mp hx with rfl | hx <;> rcases List.mem_cons.mp hy with rfl | hy <;> simp_all)⟩

/-! ### Input-path dispatch and uncaught errors

Basenames are character lists; `containsSub pat b` is the Python
`pat in b` substring test. -/

/-- Holds when `pat` matches at the head of `s`. -/
def leadsWith : List Char → List Char → Bool
  | [], _ => true
  | _ :: _, [] => false
  | p :: ps, c :: cs => p == c && leadsWith ps cs

/-- Python's `pat in s` substring test. -/
def containsSub (pat : List Char) : List Char → Bool
  | [] => leadsWith pat []
  | c :: t => leadsWith pat (c :: t) || containsSub pat t

/-- The directory-mode condition of the script:
`('.nii.gz' not in basename) & ('.nii' not in basename) &
('.mgz' not in basename) & ('.npz' not in basename)`. -/
def dirModeCond (b : List Char) : Bool :=
  (!containsSub ".nii.gz".toList b) && (!containsSub ".nii".toList b)
    && (!containsSub ".mgz".toList b) && (!containsSub ".npz".toList b)

/-- The basename contains at least one of the supported substrings. -/
def hasSupportedSub (b : List Char) : Bool :=
  containsSub ".nii.gz".toList b || containsSub ".nii".toList b
    || containsSub ".mgz".toList b || containsSub ".npz".toList b

/-- The two uncaught errors of the dispatch: the explicit
`raise Exception(...)` for an unsupported extension, and the failing
`assert os.path.isfile(...)`. -/
inductive ScriptError where
  | unsupportedExtension
  | assertionFailed
deriving DecidableEq

/-- How the input paths are interpreted when no error is raised. -/
inductive InputMode where
  | folder
  | singleFile
deriving DecidableEq

/-- The input-path dispatch of the script, parametrized by the basename
of `path_images` and by whether a file exists at that path. -/
def dispatchInput (b : List Char) (isfile : Bool) : Except ScriptError InputMode :=
  if dirModeCond b then
    if isfile then Except.error ScriptError.unsupportedExtension
    else Except.ok InputMode.folder
  else
    if isfile then Except.ok InputMode.singleFile
    else Except.error ScriptError.assertionFailed

theorem dirModeCond_eq_not_supported (b : List Char) :
    dirModeCond b = !hasSupportedSub b := by
  rw [dirModeCond, hasSupportedSub]
  cases containsSub ".nii.gz".toList b <;> cases containsSub ".nii".toList b <;>
    cases containsSub ".mgz".toList b <;> cases containsSub ".npz".toList b <;> rfl

/-- Claim C5: An uncaught error is raised exactly when either the basename
contains none of the supported substrings and `path_images` is an
existing file (an `Exception`), or the basename contains one of them but
no file exists at the path (an `AssertionError`). -/
theorem c5_error_dispatch (b : List Char) (isfile : Bool) :
    (dispatchInput b isfile = Except.error ScriptError.unsupportedExtension
      ↔ hasSupportedSub b = false ∧ isfile = true)
    ∧ (dispatchInput b isfile = Except.error ScriptError.assertionFailed
      ↔ hasSupportedSub b = true ∧ isfile = false)
    ∧ ((∃ e, dispatchInput b isfile = Except.error e)
      ↔ (hasSupportedSub b = false ∧ isfile = true)
        ∨ (hasSupportedSub b = true ∧ isfile = false)) := by
  rw [dispatchInput, dirModeCond_eq_not_supported]
  cases hs : hasSupportedSub b <;> cases isfile <;>
    simp

/-! ### Output-path construction in directory mode

Python's `str.replace` replaces every non-overlapping occurrence,
scanning left to right; the replacement text is not rescanned. We embed
it on character lists with a structural fuel (the length of the string,
which bounds the number of scanning steps). -/

/-- One left-to-right replace-all pass; `fuel` bounds the scan length and
is always instantiated with the length of the scanned string. -/
def pyReplaceGo : ℕ → List Char → List Char → List Char → List Char
  | _, [], _, _ => []
  | 0, _ :: _, _, _ => []
  | fuel + 1, c :: rest, pat, repl =>
    if pat != [] && leadsWith pat (c :: rest) then
      repl ++ pyReplaceGo fuel ((c :: rest).drop pat.length) pat repl
    else c :: pyReplaceGo fuel rest pat repl

/-- Python's `s.replace(pat, repl)`. -/
def pyReplace (s pat repl : List Char) : List Char :=
  pyReplaceGo s.length s pat repl

/-- The three chained replacements building the output file name from the
input image's basename. -/
def outputName (b : List Char) : List Char :=
  pyReplace (pyReplace (pyReplace b ".nii".toList "_SynthSR.nii".toList)
      ".mgz".toList "_SynthSR.mgz".toList)
    ".npz".toList "_SynthSR.npz".toList

theorem pyReplaceGo_skip (stem : List Char) (fuel : ℕ) (t p' repl : List Char)
    (hstem : ('.' : Char) ∉ stem) :
    pyReplaceGo (stem.length + fuel) (stem ++ t) ('.' :: p') repl
      = stem ++ pyReplaceGo fuel t ('.' :: p') repl := by
  induction stem with
  | nil => simp
  | cons c cs ih =>
    have hc : c ≠ '.' := fun h => hstem (h ▸ List.mem_cons_self c cs)
    have hlen : (c :: cs).length + fuel = (cs.length + fuel) + 1 := by
      simp
      omega
    rw [hlen, List.cons_append, pyReplaceGo]
    have hbeq : (('.' : Char) == c) = false := by
      exact beq_eq_false_iff_ne.mpr (Ne.symm hc)
    rw [leadsWith, hbeq]
    simp only [Bool.false_and, Bool.and_false, if_neg Bool.false_ne_true]
    rw [ih (fun h => hstem (List.mem_cons_of_mem c h))]
    rfl

/-- Replacing a pattern that starts with a dot leaves a dot-free stem
untouched and proceeds on the rest. -/
theorem pyReplace_skip (stem t p' repl : List Char) (hstem : ('.' : Char) ∉ stem) :
    pyReplace (stem ++ t) ('.' :: p') repl = stem ++ pyReplace t ('.' :: p') repl := by
  rw [pyReplace, pyReplace, List.length_append]
  exact pyReplaceGo_skip stem t.length t p' repl hstem

/-- Claim C10: In directory mode the output basename is the input basename
with `_SynthSR` inserted before the extension: `.nii.gz` maps to
`_SynthSR.nii.gz`, `.nii` to `_SynthSR.nii`, `.mgz` to `_SynthSR.mgz`,
`.npz` to `_SynthSR.npz`; the output file format equals the input's. -/
theorem c10_output_name (stem : List Char) (hstem : ('.' : Char) ∉ stem) :
    outputName (stem ++ ".nii.gz".toList) = stem ++ "_SynthSR.nii.gz".toList
    ∧ outputName (stem ++ ".nii".toList) = stem ++ "_SynthSR.nii".toList
    ∧ outputName (stem ++ ".mgz".toList) = stem ++ "_SynthSR.mgz".toList
    ∧ outputName (stem ++ ".npz".toList) = stem ++ "_SynthSR.npz".toList := by
  have hnii : (".nii".toList) = '.' :: "nii".toList := by decide
  have hmgz : (".mgz".toList) = '.' :: "mgz".toList := by decide
  have hnpz : (".npz".toList) = '.' :: "npz".toList := by decide
  refine ⟨?_, ?_, ?_, ?_⟩
  · rw [outputName, hnii, pyReplace_skip _ _ _ _ hstem,
      (by decide : pyReplace ".nii.gz".toList ('.' :: "nii".toList)
        "_SynthSR.nii".toList = "_SynthSR.nii.gz".toList),
      hmgz, pyReplace_skip _ _ _ _ hstem,
      (by decide : pyReplace "_SynthSR.nii.gz".toList ('.' :: "mgz".toList)
        "_SynthSR.mgz".toList = "_SynthSR.nii.gz".toList),
      hnpz, pyReplace_skip _ _ _ _ hstem,
      (by decide : pyReplace "_SynthSR.nii.gz".toList ('.' :: "npz".toList)
        "_SynthSR.npz".toList = "_SynthSR.nii.gz".toList)]
  · rw [outputName, hnii, pyReplace_skip _ _ _ _ hstem,
      (by decide : pyReplace ('.' :: "nii".toList) ('.' :: "nii".toList)
        "_SynthSR.nii".toList = "_SynthSR.nii".toList),
      hmgz, pyReplace_skip _ _ _ _ hstem,
      (by decide : pyReplace "_SynthSR.nii".toList ('.' :: "mgz".toList)
        "_SynthSR.mgz".toList = "_SynthSR.nii".toList),
      hnpz, pyReplace_skip _ _ _ _ hstem,
      (by decide : pyReplace "_SynthSR.nii".toList ('.' :: "npz".toList)
        "_SynthSR.npz".toList = "_SynthSR.nii".toList)]
  · rw [outputName, hnii, pyReplace_skip _ _ _ _ hstem,
      (by decide : pyReplace ".mgz".toList ('.' :: "nii".toList)
        "_SynthSR.nii".toList = ".mgz".toList),
      hmgz, pyReplace_skip _ _ _ _ hstem,
      (by decide : pyReplace ('.' :: "mgz".toList) ('.' :: "mgz".toList)
        "_SynthSR.mgz".toList = "_SynthSR.mgz".toList),
      hnpz, pyReplace_skip _ _ _ _ hstem,
      (by decide : pyReplace "_SynthSR.mgz".toList ('.' :: "npz".toList)
        "_SynthSR.npz".toList = "_SynthSR.mgz".toList)]
  · rw [outputName, hnii, pyReplace_skip _ _ _ _ hstem,
      (by decide : pyReplace ".npz".toList ('.' :: "nii".toList)
        "_SynthSR.nii".toList = ".npz".toList),
      hmgz, pyReplace_skip _ _ _ _ hstem,
      (by decide : pyReplace ".npz".toList ('.' :: "mgz".toList)
        "_SynthSR.mgz".toList = ".npz".toList),
      hnpz, pyReplace_skip _ _ _ _ hstem,
      (by decide : pyReplace ('.' :: "npz".toList) ('.' :: "npz".toList)
        "_SynthSR.npz".toList = "_SynthSR.npz".toList)]

theorem c10_output_name_witness :
    outputName ("brain".toList ++ ".nii.gz".toList)
      = "brain".toList ++ "_SynthSR.nii.gz".toList :=
  (c10_output_name "brain".toList (by decide)).1
